import Mathlib

/-!
Verification of the Decaf prime-order-group library interface (ed448goldilocks).

The repository ships two C headers: `decaf.h` (the group layer: a group of
prime order on a twisted Edwards curve, with canonical encode/decode, equality,
add/sub and scalar multiplication, for the 448-bit variant with 56-byte
encodings) and `crypto_255.h` (the key-management / signature / DH layer for
the 255-bit variant with 32-byte encodings).  The implementations behind these
declarations are not part of the repository snapshot, so every operation below
is modelled from the specification: the group of prime order ℓ is modelled as
`ZMod ℓ` (any group of prime order is cyclic of that order), a point encoding
is the canonical little-endian byte string of the canonical representative,
and the sponge transcript (an external collaborator with unspecified
internals) is modelled as a deterministic absorb/squeeze function of the
transcript bytes.
-/

set_option maxRecDepth 40000

/-! ## Little-endian byte strings -/

/-- Value of a little-endian byte string (byte 0 is least significant). -/
def leVal (l : List Nat) : Nat := l.foldr (fun b acc => b + 256 * acc) 0

/-- Canonical little-endian encoding of `v` on exactly `n` bytes. -/
def leBytes : Nat → Nat → List Nat
  | 0, _ => []
  | n + 1, v => (v % 256) :: leBytes n (v / 256)

theorem leBytes_length (n v : Nat) : (leBytes n v).length = n := by
  induction n generalizing v with
  | zero => rfl
  | succ n ih => simp [leBytes, ih]

theorem leBytes_mem_lt (n v : Nat) : ∀ b ∈ leBytes n v, b < 256 := by
  induction n generalizing v with
  | zero => intro b hb; simp [leBytes] at hb
  | succ n ih =>
      intro b hb
      simp only [leBytes, List.mem_cons] at hb
      rcases hb with h | h
      · exact h ▸ Nat.mod_lt _ (by decide)
      · exact ih _ b h

theorem leVal_leBytes (n v : Nat) : leVal (leBytes n v) = v % 256 ^ n := by
  induction n generalizing v with
  | zero => simp [leBytes, leVal, Nat.mod_one]
  | succ n ih =>
      have h : (256 : Nat) ^ (n + 1) = 256 * 256 ^ n := by
        rw [pow_succ, Nat.mul_comm]
      have hstep : leVal (leBytes (n + 1) v) = v % 256 + 256 * leVal (leBytes n (v / 256)) := rfl
      rw [hstep, ih (v / 256), h, Nat.mod_mul]

theorem leBytes_leVal (l : List Nat) (hb : ∀ b ∈ l, b < 256) :
    leBytes l.length (leVal l) = l := by
  induction l with
  | nil => rfl
  | cons b t ih =>
      have hb0 : b < 256 := hb b (List.mem_cons_self _ _)
      have hbt : ∀ x ∈ t, x < 256 := fun x hx => hb x (List.mem_cons_of_mem _ hx)
      have hv : leVal (b :: t) = b + 256 * leVal t := rfl
      have h1 : (b + 256 * leVal t) % 256 = b := by omega
      have h2 : (b + 256 * leVal t) / 256 = leVal t := by omega
      show (leVal (b :: t) % 256) :: leBytes t.length (leVal (b :: t) / 256) = b :: t
      rw [hv, h1, h2, ih hbt]

theorem leBytes_zero (n : Nat) : leBytes n 0 = List.replicate n 0 := by
  induction n with
  | zero => rfl
  | succ n ih => simp [leBytes, List.replicate_succ, ih]

/-! ## Bit decomposition of scalar words -/

/-- The `n` low bits of a word, least significant first. -/
def natBits : Nat → Nat → List Bool
  | 0, _ => []
  | n + 1, w => (w % 2 == 1) :: natBits n (w / 2)

/-- Value of a little-endian bit string. -/
def bitsVal : List Bool → Nat
  | [] => 0
  | b :: bs => (if b then 1 else 0) + 2 * bitsVal bs

theorem natBits_length (n w : Nat) : (natBits n w).length = n := by
  induction n generalizing w with
  | zero => rfl
  | succ n ih => simp [natBits, ih]

theorem bitsVal_natBits (n w : Nat) : bitsVal (natBits n w) = w % 2 ^ n := by
  induction n generalizing w with
  | zero => simp [natBits, bitsVal, Nat.mod_one]
  | succ n ih =>
      have h : (2 : Nat) ^ (n + 1) = 2 * 2 ^ n := by
        rw [pow_succ, Nat.mul_comm]
      have hb : (if (w % 2 == 1) = true then 1 else 0) = w % 2 := by
        rcases Nat.mod_two_eq_zero_or_one w with h0 | h1
        · simp [h0]
        · simp [h1]
      have hstep : bitsVal (natBits (n + 1) w) =
          (if (w % 2 == 1) = true then 1 else 0) + 2 * bitsVal (natBits n (w / 2)) := rfl
      rw [hstep, hb, ih (w / 2), h, Nat.mod_mul]

/-! ## Outcome words (decaf.h)

`typedef uint64_t decaf_word_t, decaf_bool_t;`
`static const decaf_bool_t DECAF_TRUE = -(decaf_bool_t)1, DECAF_FALSE = 0;`
`static const decaf_bool_t DECAF_SUCCESS = DECAF_TRUE, DECAF_FAILURE = DECAF_FALSE;`
-/

/-- The all-ones 64-bit word `-(decaf_bool_t)1`, computed as the unsigned
residue of `-1` modulo `2^64`. -/
def DECAF_TRUE : Nat := ((-1 : Int) % (2 ^ 64 : Int)).toNat

def DECAF_FALSE : Nat := 0

def DECAF_SUCCESS : Nat := DECAF_TRUE

def DECAF_FAILURE : Nat := DECAF_FALSE

/-! ## Generic canonical point encoding

Modelled from the spec: the Group implementation (extended twisted Edwards
coordinate formulas, the square-root based canonical encode/decode) is not in
the repository snapshot; only the header `decaf.h` is.  The spec describes a
group of prime order ℓ whose elements (cosets) are in bijection with canonical
fixed-length little-endian byte strings, so the group is modelled as `ZMod ℓ`
and the canonical encoding of a coset is the little-endian byte string of its
canonical representative.  `Decode` rejects exactly the byte strings that are
not canonical encodings, and, when `allow_identity` is false, also the
canonical encoding of the identity coset. -/
def pointEncode (n q : Nat) (P : ZMod q) : List Nat := leBytes n (ZMod.val P)

/-- Modelled from the spec: see `pointEncode`.  Returns `none` (Failure)
rather than any undefined or partially-initialized point. -/
def pointDecode (n q : Nat) (ser : List Nat) (allow_identity : Bool) : Option (ZMod q) :=
  if ser.length = n ∧ (∀ b ∈ ser, b < 256) ∧ leVal ser < q ∧
      (allow_identity = true ∨ leVal ser ≠ 0) then
    some ((leVal ser : Nat) : ZMod q)
  else none

theorem pointDecode_pointEncode (n q : Nat) [NeZero q] (hq : q ≤ 256 ^ n)
    (P : ZMod q) (ai : Bool) (hai : ai = true ∨ P ≠ 0) :
    pointDecode n q (pointEncode n q P) ai = some P := by
  have hval : ZMod.val P < q := ZMod.val_lt P
  have hle : leVal (pointEncode n q P) = ZMod.val P := by
    rw [pointEncode, leVal_leBytes, Nat.mod_eq_of_lt (Nat.lt_of_lt_of_le hval hq)]
  have hcond : (pointEncode n q P).length = n ∧ (∀ b ∈ pointEncode n q P, b < 256) ∧
      leVal (pointEncode n q P) < q ∧
      (ai = true ∨ leVal (pointEncode n q P) ≠ 0) := by
    refine ⟨leBytes_length n _, leBytes_mem_lt n _, hle ▸ hval, ?_⟩
    rcases hai with h | h
    · exact Or.inl h
    · refine Or.inr ?_
      rw [hle]
      intro h0
      exact h ((ZMod.val_eq_zero P).mp h0)
  rw [pointDecode, if_pos hcond, hle, ZMod.natCast_rightInverse P]

theorem pointEncode_of_pointDecode (n q : Nat) (ser : List Nat) (ai : Bool) (P : ZMod q)
    (h : pointDecode n q ser ai = some P) : pointEncode n q P = ser := by
  rw [pointDecode] at h
  by_cases hc : ser.length = n ∧ (∀ b ∈ ser, b < 256) ∧ leVal ser < q ∧
      (ai = true ∨ leVal ser ≠ 0)
  · rw [if_pos hc] at h
    have hP : P = ((leVal ser : Nat) : ZMod q) := (Option.some_injective _ h).symm
    have hvP : ZMod.val P = leVal ser := by
      rw [hP, ZMod.val_cast_of_lt hc.2.2.1]
    rw [pointEncode, hvP, ← hc.1, leBytes_leVal ser hc.2.1]
  · rw [if_neg hc] at h
    exact absurd h (by simp)

theorem leVal_pointEncode_lt (n q : Nat) [NeZero q] (P : ZMod q) (hq : q ≤ 256 ^ n) :
    leVal (pointEncode n q P) < q := by
  rw [pointEncode, leVal_leBytes,
    Nat.mod_eq_of_lt (Nat.lt_of_lt_of_le (ZMod.val_lt P) hq)]
  exact ZMod.val_lt P

/-! ## The 448-bit group layer (decaf.h)

The group order of the Decaf group on the Ed448-Goldilocks curve. -/

def ell448 : Nat := 2 ^ 446 - 13818066809895115352007386748515426880336692474882178609894547503885

instance : NeZero ell448 := ⟨by decide⟩

theorem ell448_le : ell448 ≤ 256 ^ 56 := by decide

/-- A point of the prime-order group, modelled as `ZMod ell448`
(internal extended-coordinate representatives of a coset are identified). -/
abbrev Point448 := ZMod ell448

/-- The distinguished identity coset (`const decaf_point_t decaf_identity`). -/
def decaf_identity : Point448 := 0

/-- A generator of the (cyclic, prime-order) group. -/
def decaf_base : Point448 := 1

/-- Modelled from the spec: complete addition formula; total on all inputs. -/
def decaf_add (a b : Point448) : Point448 := a + b

/-- Modelled from the spec: complete subtraction formula; total on all inputs. -/
def decaf_sub (a b : Point448) : Point448 := a - b

/-- Modelled from the spec: coset equality test. -/
def decaf_eq (a b : Point448) : Bool := decide (a = b)

/-- Modelled from the spec: value copy. -/
def decaf_copy (a : Point448) : Point448 := a

/-- Modelled from the spec: canonical 56-byte encoding of a coset. -/
def decaf_encode (pt : Point448) : List Nat := pointEncode 56 ell448 pt

/-- Modelled from the spec: inverse of `decaf_encode`; rejects every byte
string that is not a canonical encoding and, when `allow_identity` is false,
the canonical encoding of the identity coset. -/
def decaf_decode (ser : List Nat) (allow_identity : Bool) : Option Point448 :=
  pointDecode 56 ell448 ser allow_identity

/-- The `decaf_bool_t` outcome word of `decaf_decode`. -/
def decaf_decode_ret (ser : List Nat) (allow_identity : Bool) : Nat :=
  if (decaf_decode ser allow_identity).isSome then DECAF_SUCCESS else DECAF_FAILURE

/-! ## Constant-time scalar multiplication (decaf_scalarmul)

Modelled from the spec: a fixed-schedule double-and-add ladder over the bit
length implied by the caller-specified word count, every iteration performing
the same field operations regardless of the current bit value, with selection
done by a constant-time conditional move.  Each ladder iteration emits the
same fixed trace of field-operation tags, so the operation trace is a function
of the declared scalar width only. -/

/-- Tags for the field operations performed by the (external) field layer. -/
inductive FOp
  | fadd
  | fsub
  | fmul
  | fsqr
  | fsqrt
  | fsel
deriving DecidableEq

/-- The fixed field-operation schedule of one ladder iteration
(point doubling, point addition, constant-time conditional move). -/
def stepTrace : List FOp :=
  [FOp.fsqr, FOp.fsqr, FOp.fmul, FOp.fmul, FOp.fadd, FOp.fsub, FOp.fadd, FOp.fsel]

/-- One ladder iteration: unconditionally compute `acc + pw`, select it with a
constant-time conditional move when the current bit is set, and double `pw`;
the emitted field-operation trace does not depend on the bit. -/
def ladderStep (st : (Point448 × Point448) × List FOp) (b : Bool) :
    (Point448 × Point448) × List FOp :=
  ((if b then st.1.1 + st.1.2 else st.1.1, st.1.2 + st.1.2), st.2 ++ stepTrace)

/-- Little-endian bit string of a scalar given as little-endian 64-bit words. -/
def scalarBits (scalar : List Nat) : List Bool := (scalar.map (natBits 64)).flatten

/-- The integer value of a scalar given as little-endian 64-bit words. -/
def scalarVal (scalar : List Nat) : Nat := bitsVal (scalarBits scalar)

/-- Modelled from the spec: `decaf_scalarmul(scaled, base, scalar, scalar_words)`
computes `scalar * base` by the constant-time ladder; the word count is the
length of the word list. -/
def decaf_scalarmul (base : Point448) (scalar : List Nat) : Point448 :=
  ((scalarBits scalar).foldl ladderStep ((0, base), [])).1.1

/-- The field-operation trace emitted by `decaf_scalarmul`. -/
def decaf_scalarmul_trace (base : Point448) (scalar : List Nat) : List FOp :=
  ((scalarBits scalar).foldl ladderStep ((0, base), [])).2

theorem ladder_acc (bits : List Bool) :
    ∀ (acc pw : Point448) (t : List FOp),
      ((bits.foldl ladderStep ((acc, pw), t)).1.1 =
        acc + (bitsVal bits : Point448) * pw) := by
  induction bits with
  | nil => intro acc pw t; simp [bitsVal]
  | cons b bs ih =>
      intro acc pw t
      have hstep : List.foldl ladderStep ((acc, pw), t) (b :: bs) =
          List.foldl ladderStep ((if b then acc + pw else acc, pw + pw), t ++ stepTrace) bs := rfl
      rw [hstep, ih]
      have hv : bitsVal (b :: bs) = (if b then 1 else 0) + 2 * bitsVal bs := rfl
      rw [hv]
      cases b
      · rw [if_neg Bool.false_ne_true, if_neg Bool.false_ne_true]
        push_cast
        ring
      · rw [if_pos rfl, if_pos rfl]
        push_cast
        ring

theorem ladder_trace (bits : List Bool) :
    ∀ (st : (Point448 × Point448) × List FOp),
      (bits.foldl ladderStep st).2 = st.2 ++ (List.replicate bits.length stepTrace).flatten := by
  induction bits with
  | nil => intro st; simp
  | cons b bs ih =>
      intro st
      have hstep : List.foldl ladderStep st (b :: bs) =
          List.foldl ladderStep ((if b then st.1.1 + st.1.2 else st.1.1, st.1.2 + st.1.2),
            st.2 ++ stepTrace) bs := rfl
      rw [hstep, ih]
      simp [List.replicate_succ, List.append_assoc]

theorem scalarBits_length (scalar : List Nat) :
    (scalarBits scalar).length = 64 * scalar.length := by
  induction scalar with
  | nil => rfl
  | cons w ws ih =>
      simp only [scalarBits, List.map_cons, List.flatten_cons, List.length_append,
        natBits_length]
      simp only [scalarBits] at ih
      rw [ih, List.length_cons]
      ring

theorem decaf_scalarmul_eq (base : Point448) (scalar : List Nat) :
    decaf_scalarmul base scalar = (scalarVal scalar : Point448) * base := by
  rw [decaf_scalarmul, ladder_acc, scalarVal, zero_add]

theorem decaf_scalarmul_trace_eq (base : Point448) (scalar : List Nat) :
    decaf_scalarmul_trace base scalar =
      (List.replicate (64 * scalar.length) stepTrace).flatten := by
  rw [decaf_scalarmul_trace, ladder_trace, scalarBits_length, List.nil_append]

/-- Modelled from the spec: the fixed field-operation schedule of `decaf_decode`
(one field-element load per input byte, then the square-root based
canonicity/membership check); a function of the input length only. -/
def decaf_decode_trace (ser : List Nat) : List FOp :=
  (List.replicate ser.length FOp.fadd) ++
    [FOp.fsqr, FOp.fmul, FOp.fsqrt, FOp.fmul, FOp.fsub, FOp.fsel]

/-! ## The 255-bit variant and the key/signature layer (crypto_255.h)

The group order of the Decaf group for the 255-bit curve variant. -/

def ell255 : Nat := 2 ^ 252 + 27742317777372353535851937790883648493

instance : NeZero ell255 := ⟨by decide⟩

theorem ell255_le : ell255 ≤ 256 ^ 32 := by decide

theorem ell255_pos : 0 < ell255 := Nat.pos_of_ne_zero (NeZero.ne ell255)

/-- A point of the 255-bit prime-order group, modelled as `ZMod ell255`. -/
abbrev Point255 := ZMod ell255

/-- A generator of the 255-bit group. -/
def decaf_255_base : Point255 := 1

/-- Canonical 32-byte encoding of a coset of the 255-bit group. -/
def decaf_255_point_encode (pt : Point255) : List Nat := pointEncode 32 ell255 pt

/-- Decoding of a 32-byte string to a coset of the 255-bit group. -/
def decaf_255_point_decode (ser : List Nat) (allow_identity : Bool) : Option Point255 :=
  pointDecode 32 ell255 ser allow_identity

/-! ### Sponge transcript model

Modelled from the spec: the SpongeTranscript (duplex/XOF absorb-squeeze
construction, `shake.h`) is an external collaborator whose internals are out
of scope; it is modelled as an explicit deterministic absorb/squeeze function
of the transcript bytes. -/

/-- Absorb one byte into the transcript state. -/
def xofAbsorb (st b : Nat) : Nat := (st * 65539 + b + 1) % 2 ^ 128

/-- The transcript state after absorbing a byte string. -/
def xofState (msg : List Nat) : Nat := msg.foldl xofAbsorb 1

/-- Squeeze `n` bytes out of a transcript that absorbed `msg`. -/
def xofSqueeze (msg : List Nat) (n : Nat) : List Nat :=
  (List.range n).map (fun i => xofState (msg ++ [i % 256]) % 256)

/-- Derive a scalar from a transcript: squeeze 64 bytes, reduce mod the
group order (the reduction discipline of the spec). -/
def xofScalar (msg : List Nat) : Nat := leVal (xofSqueeze msg 64) % ell255

theorem xofSqueeze_length (msg : List Nat) (n : Nat) : (xofSqueeze msg n).length = n := by
  simp [xofSqueeze]

theorem xofScalar_lt (msg : List Nat) : xofScalar msg < ell255 :=
  Nat.mod_lt _ ell255_pos

/-! ### Private keys -/

/-- The private key structure `decaf_255_private_key_s`: the symmetric seed
`sym`, the secret scalar, and the cached public-key encoding `pub`. -/
structure decaf_255_private_key_s where
  sym : List Nat
  secret_scalar : Nat
  pub : List Nat

/-- Modelled from the spec: absorb the seed into a fresh transcript (domain
tag 0), squeeze a scalar, cache `pub = Encode(ScalarMul(Base, scalar))`. -/
def decaf_255_derive_private_key (proto : List Nat) : decaf_255_private_key_s :=
  { sym := proto
    secret_scalar := xofScalar (0 :: proto)
    pub := decaf_255_point_encode ((xofScalar (0 :: proto) : Point255) * decaf_255_base) }

/-- Modelled from the spec: returns the cached `pub` field. -/
def decaf_255_private_to_public (priv : decaf_255_private_key_s) : List Nat := priv.pub

/-- Modelled from the spec: overwrite `sym`, `secret_scalar` and `pub` with
zero bytes; total, single-path (no early return). -/
def decaf_255_destroy_private_key (_priv : decaf_255_private_key_s) :
    decaf_255_private_key_s :=
  { sym := List.replicate 32 0, secret_scalar := 0, pub := List.replicate 32 0 }

/-- The bytes of the backing storage of a private key: the seed, the secret
scalar (32-byte little-endian), and the cached public-key encoding. -/
def privateKeyBytes (k : decaf_255_private_key_s) : List Nat :=
  k.sym ++ leBytes 32 k.secret_scalar ++ k.pub

/-! ### Signatures -/

/-- Nonce scalar of the deterministic signature: squeeze from a transcript of
the seed and the message (domain tag 1). -/
def nonceScalar (sym message : List Nat) : Nat := xofScalar (1 :: (sym ++ message))

/-- Challenge scalar: squeeze from a transcript of the encoded commitment, the
public key and the message (domain tag 2); recomputed identically by Verify. -/
def chalScalar (renc pub message : List Nat) : Nat :=
  xofScalar (2 :: (renc ++ pub ++ message))

/-- The encoded commitment point `Encode(ScalarMul(Base, r))` of a signature. -/
def signCommit (sym message : List Nat) : List Nat :=
  decaf_255_point_encode ((nonceScalar sym message : Point255) * decaf_255_base)

/-- Modelled from the spec: `decaf_255_sign` produces
`Encode(r*Base) ++ bytes(r + c*scalar mod ℓ)`. -/
def decaf_255_sign (priv : decaf_255_private_key_s) (message : List Nat) : List Nat :=
  signCommit priv.sym message ++
    leBytes 32 ((nonceScalar priv.sym message +
      chalScalar (signCommit priv.sym message) priv.pub message * priv.secret_scalar) % ell255)

/-- Modelled from the spec: `decaf_255_verify` splits the signature, decodes
the commitment and the public key (any decode failure is Verify failure),
recomputes the challenge exactly as Sign does, and checks the group equation
`s*Base == R + c*Pub`; returns a `decaf_error_t` outcome word. -/
def decaf_255_verify (sig pub message : List Nat) : Nat :=
  (((decaf_255_point_decode (sig.take 32) true).bind (fun R =>
    (decaf_255_point_decode pub true).map (fun P =>
      if (leVal (sig.drop 32) : Point255) * decaf_255_base =
          R + (chalScalar (sig.take 32) pub message : Point255) * P then
        DECAF_SUCCESS
      else DECAF_FAILURE)))).getD DECAF_FAILURE

/-! ### Diffie-Hellman shared secret -/

/-- Modelled from the spec: decode the peer public key (failure propagates),
compute `P = ScalarMul(DecodedPoint, my_scalar)`, absorb `Encode(P)` and the
two public keys ordered by `me_first`, and squeeze `shared_bytes` bytes. -/
def decaf_255_shared_secret (shared_bytes : Nat) (my_privkey : decaf_255_private_key_s)
    (your_pubkey : List Nat) (me_first : Bool) : Option (List Nat) :=
  (decaf_255_point_decode your_pubkey true).map (fun Q =>
    xofSqueeze
      (3 :: (decaf_255_point_encode ((my_privkey.secret_scalar : Point255) * Q) ++
        (if me_first then my_privkey.pub ++ your_pubkey else your_pubkey ++ my_privkey.pub)))
      shared_bytes)

/-- The `decaf_error_t` outcome word of `decaf_255_shared_secret`. -/
def decaf_255_shared_secret_ret (shared_bytes : Nat) (my_privkey : decaf_255_private_key_s)
    (your_pubkey : List Nat) (me_first : Bool) : Nat :=
  if (decaf_255_shared_secret shared_bytes my_privkey your_pubkey me_first).isSome then
    DECAF_SUCCESS
  else DECAF_FAILURE

/-- Modelled from the spec: the fixed field-operation schedule of
`decaf_255_verify`: two decodes, two fixed-width (four 64-bit words) ladder
scalar multiplications, one complete addition and one equality check; a
function of the input lengths only (the transcript hashing performs no field
operations). -/
def decaf_255_verify_trace (sig pub _message : List Nat) : List FOp :=
  decaf_decode_trace (sig.take 32) ++ decaf_decode_trace pub ++
    (List.replicate (64 * 4) stepTrace).flatten ++
    (List.replicate (64 * 4) stepTrace).flatten ++
    [FOp.fmul, FOp.fmul, FOp.fmul, FOp.fmul, FOp.fadd, FOp.fsub, FOp.fadd] ++
    [FOp.fmul, FOp.fmul, FOp.fsub]

/-! ## Claims -/

/-- C4: For all Points A, B, C: Add(A,B) equals Add(B,A) under Eq;
Add(Add(A,B),C) equals Add(A,Add(B,C)); Add(A, Identity) equals A; and
Sub(A,A) equals Identity — with Add and Sub total on all inputs (they are
defined for every pair of points, identity and equal operands included,
with no case analysis). -/
theorem claim_c4_group_laws (A B C : Point448) :
    decaf_eq (decaf_add A B) (decaf_add B A) = true ∧
    decaf_eq (decaf_add (decaf_add A B) C) (decaf_add A (decaf_add B C)) = true ∧
    decaf_eq (decaf_add A decaf_identity) A = true ∧
    decaf_eq (decaf_sub A A) decaf_identity = true := by
  simp only [decaf_eq, decaf_add, decaf_sub, decaf_identity, decide_eq_true_eq]
  exact ⟨add_comm A B, add_assoc A B C, add_zero A, sub_self A⟩

/-- C7: After DestroyPrivateKey(k), every byte of k's backing storage — the
seed, the secret scalar, and the cached public-key encoding — is zero
(the operation is total and single-path, so this holds on every path). -/
theorem claim_c7_destroy_zeroizes (k : decaf_255_private_key_s) :
    privateKeyBytes (decaf_255_destroy_private_key k) = List.replicate 96 0 := by
  show List.replicate 32 0 ++ leBytes 32 0 ++ List.replicate 32 0 = List.replicate 96 0
  rw [leBytes_zero]
  decide

/-- C8: DerivePrivateKey is a pure function of its input seed: two runs on
equal seeds produce keys identical in all three fields (seed, secret scalar,
cached public-key encoding). -/
theorem claim_c8_derive_deterministic (s1 s2 : List Nat) (h : s1 = s2) :
    (decaf_255_derive_private_key s1).sym = (decaf_255_derive_private_key s2).sym ∧
    (decaf_255_derive_private_key s1).secret_scalar =
      (decaf_255_derive_private_key s2).secret_scalar ∧
    (decaf_255_derive_private_key s1).pub = (decaf_255_derive_private_key s2).pub := by
  subst h
  exact ⟨rfl, rfl, rfl⟩

/-- Witness for C8 at the all-zero 32-byte seed. -/
theorem claim_c8_witness :
    List.replicate 32 0 = List.replicate 32 0 ∧
    ((decaf_255_derive_private_key (List.replicate 32 0)).sym =
        (decaf_255_derive_private_key (List.replicate 32 0)).sym ∧
      (decaf_255_derive_private_key (List.replicate 32 0)).secret_scalar =
        (decaf_255_derive_private_key (List.replicate 32 0)).secret_scalar ∧
      (decaf_255_derive_private_key (List.replicate 32 0)).pub =
        (decaf_255_derive_private_key (List.replicate 32 0)).pub) :=
  ⟨rfl, claim_c8_derive_deterministic _ _ rfl⟩

/-- C9: Every fallible operation returns one of exactly two outcome words:
DECAF_SUCCESS, the all-ones 64-bit word (`-1` as an unsigned 64-bit value,
`2^64 - 1`), and DECAF_FAILURE, zero — directly usable as a branch-free
bitmask. -/
theorem claim_c9_outcomes :
    DECAF_SUCCESS = 2 ^ 64 - 1 ∧ DECAF_FAILURE = 0 ∧
    (∀ (ser : List Nat) (ai : Bool),
      decaf_decode_ret ser ai = DECAF_SUCCESS ∨ decaf_decode_ret ser ai = DECAF_FAILURE) ∧
    (∀ sig pub message : List Nat,
      decaf_255_verify sig pub message = DECAF_SUCCESS ∨
        decaf_255_verify sig pub message = DECAF_FAILURE) ∧
    (∀ (n : Nat) (k : decaf_255_private_key_s) (pub : List Nat) (mf : Bool),
      decaf_255_shared_secret_ret n k pub mf = DECAF_SUCCESS ∨
        decaf_255_shared_secret_ret n k pub mf = DECAF_FAILURE) := by
  refine ⟨by decide, rfl, ?_, ?_, ?_⟩
  · intro ser ai
    rw [decaf_decode_ret]
    split
    · exact Or.inl rfl
    · exact Or.inr rfl
  · intro sig pub message
    rw [decaf_255_verify]
    cases decaf_255_point_decode (sig.take 32) true with
    | none => exact Or.inr rfl
    | some R =>
        cases decaf_255_point_decode pub true with
        | none => exact Or.inr rfl
        | some P =>
            simp only [Option.some_bind, Option.map_some', Option.getD_some]
            split
            · exact Or.inl rfl
            · exact Or.inr rfl
  · intro n k pub mf
    rw [decaf_255_shared_secret_ret]
    split
    · exact Or.inl rfl
    · exact Or.inr rfl

/-- C2: Every point obtainable as ScalarMul(Base, s) decodes back from its
encoding: Decode(Encode(P)) returns Success, and the decoded point satisfies
Eq with P. -/
theorem claim_c2_roundtrip (s : List Nat) :
    ∃ Q : Point448,
      decaf_decode (decaf_encode (decaf_scalarmul decaf_base s)) true = some Q ∧
      decaf_eq Q (decaf_scalarmul decaf_base s) = true ∧
      decaf_decode_ret (decaf_encode (decaf_scalarmul decaf_base s)) true = DECAF_SUCCESS := by
  have hdec : decaf_decode (decaf_encode (decaf_scalarmul decaf_base s)) true =
      some (decaf_scalarmul decaf_base s) :=
    pointDecode_pointEncode 56 ell448 ell448_le _ true (Or.inl rfl)
  refine ⟨decaf_scalarmul decaf_base s, hdec, ?_, ?_⟩
  · simp [decaf_eq]
  · rw [decaf_decode_ret, hdec]
    rfl

theorem leVal_encode448_lt (P : Point448) : leVal (decaf_encode P) < ell448 :=
  leVal_pointEncode_lt 56 ell448 P ell448_le

/-- C3: Every 56-byte string that is not the canonical encoding of some coset
is rejected by Decode with Failure (`none` — no undefined or
partially-initialized point is produced), for both values of `allow_identity`;
and when `allow_identity` is false, Decode also rejects the canonical encoding
of the identity coset. -/
theorem claim_c3_decode_rejects (ser : List Nat) (_hlen : ser.length = 56)
    (hnc : ∀ P : Point448, decaf_encode P ≠ ser) :
    decaf_decode ser true = none ∧ decaf_decode ser false = none ∧
      decaf_decode (decaf_encode decaf_identity) false = none := by
  refine ⟨?_, ?_, ?_⟩
  · cases h : decaf_decode ser true with
    | none => rfl
    | some P => exact absurd (pointEncode_of_pointDecode 56 ell448 ser true P h) (hnc P)
  · cases h : decaf_decode ser false with
    | none => rfl
    | some P => exact absurd (pointEncode_of_pointDecode 56 ell448 ser false P h) (hnc P)
  · rw [decaf_decode, decaf_encode, decaf_identity]
    have hv : leVal (pointEncode 56 ell448 (0 : Point448)) = 0 := by
      rw [pointEncode, ZMod.val_zero, leVal_leBytes, Nat.zero_mod]
    rw [pointDecode, if_neg]
    intro hcond
    rcases hcond.2.2.2 with h | h
    · exact Bool.false_ne_true h
    · exact h hv

/-- Witness for C3 at the 56-byte string of all `0xFF` bytes, whose value
exceeds the group order and hence is no canonical encoding. -/
theorem claim_c3_witness :
    ((List.replicate 56 255 : List Nat).length = 56 ∧
      (∀ P : Point448, decaf_encode P ≠ List.replicate 56 255)) ∧
    (decaf_decode (List.replicate 56 255) true = none ∧
      decaf_decode (List.replicate 56 255) false = none ∧
      decaf_decode (decaf_encode decaf_identity) false = none) :=
  ⟨⟨by decide, fun P h => absurd (h ▸ leVal_encode448_lt P) (by decide)⟩,
    claim_c3_decode_rejects (List.replicate 56 255) (by decide)
      (fun P h => absurd (h ▸ leVal_encode448_lt P) (by decide))⟩

/-- C5: For all scalars a, b (as little-endian 64-bit word lists) and every
point P: if c ≡ a + b (mod ℓ) then ScalarMul(P, c) equals
Add(ScalarMul(P,a), ScalarMul(P,b)) under Eq, and ScalarMul(P, 0) equals
Identity. -/
theorem claim_c5_scalarmul_homomorphism (P : Point448) (sa sb sc sz : List Nat)
    (hc : scalarVal sc = (scalarVal sa + scalarVal sb) % ell448)
    (hz : scalarVal sz = 0) :
    decaf_eq (decaf_scalarmul P sc)
        (decaf_add (decaf_scalarmul P sa) (decaf_scalarmul P sb)) = true ∧
    decaf_eq (decaf_scalarmul P sz) decaf_identity = true := by
  constructor
  · simp only [decaf_eq, decaf_add, decide_eq_true_eq, decaf_scalarmul_eq, hc,
      ZMod.natCast_mod]
    push_cast
    ring
  · simp only [decaf_eq, decaf_identity, decide_eq_true_eq, decaf_scalarmul_eq, hz]
    simp

/-- Witness for C5 at P = 2, a = 1, b = 2, c = 3 and the empty (zero-width)
scalar. -/
theorem claim_c5_witness :
    (scalarVal [3] = (scalarVal [1] + scalarVal [2]) % ell448 ∧ scalarVal [] = 0) ∧
    (decaf_eq (decaf_scalarmul 2 [3])
        (decaf_add (decaf_scalarmul 2 [1]) (decaf_scalarmul 2 [2])) = true ∧
      decaf_eq (decaf_scalarmul 2 []) decaf_identity = true) :=
  ⟨⟨by decide, by decide⟩,
    claim_c5_scalarmul_homomorphism 2 [1] [2] [3] [] (by decide) (by decide)⟩

/-- C10: the sequence of field operations performed by ScalarMul, Decode and
Verify depends only on the declared lengths of their inputs (for ScalarMul,
the caller-specified number of scalar words), never on the input values: any
two inputs of equal declared lengths give identical operation traces. -/
theorem claim_c10_constant_time (b1 b2 : Point448)
    (s1 s2 ser1 ser2 sig1 sig2 pub1 pub2 m1 m2 : List Nat)
    (hs : s1.length = s2.length) (hser : ser1.length = ser2.length)
    (hsig : sig1.length = sig2.length) (hpub : pub1.length = pub2.length)
    (_hm : m1.length = m2.length) :
    decaf_scalarmul_trace b1 s1 = decaf_scalarmul_trace b2 s2 ∧
    decaf_decode_trace ser1 = decaf_decode_trace ser2 ∧
    decaf_255_verify_trace sig1 pub1 m1 = decaf_255_verify_trace sig2 pub2 m2 := by
  refine ⟨?_, ?_, ?_⟩
  · rw [decaf_scalarmul_trace_eq, decaf_scalarmul_trace_eq, hs]
  · simp only [decaf_decode_trace, hser]
  · simp only [decaf_255_verify_trace, decaf_decode_trace, List.length_take, hsig, hpub]

/-- Witness for C10 at equal-length secret inputs with different values. -/
theorem claim_c10_witness :
    (([5] : List Nat).length = ([9] : List Nat).length ∧
      ([1] : List Nat).length = ([2] : List Nat).length ∧
      ([3] : List Nat).length = ([4] : List Nat).length ∧
      ([6] : List Nat).length = ([7] : List Nat).length ∧
      ([8] : List Nat).length = ([0] : List Nat).length) ∧
    (decaf_scalarmul_trace decaf_base [5] = decaf_scalarmul_trace decaf_identity [9] ∧
      decaf_decode_trace [1] = decaf_decode_trace [2] ∧
      decaf_255_verify_trace [3] [6] [8] = decaf_255_verify_trace [4] [7] [0]) :=
  ⟨⟨rfl, rfl, rfl, rfl, rfl⟩,
    claim_c10_constant_time decaf_base decaf_identity [5] [9] [1] [2] [3] [4] [6] [7] [8] [0]
      rfl rfl rfl rfl rfl⟩

/-- C6: For every two derived private keys and every output length n, the two
sides of the Diffie-Hellman exchange (with matching `me_first` conventions)
successfully compute the same n bytes of shared secret. -/
theorem claim_c6_dh_agreement (n : Nat) (seed1 seed2 : List Nat) :
    ∃ bytes : List Nat,
      decaf_255_shared_secret n (decaf_255_derive_private_key seed1)
        (decaf_255_private_to_public (decaf_255_derive_private_key seed2)) true = some bytes ∧
      decaf_255_shared_secret n (decaf_255_derive_private_key seed2)
        (decaf_255_private_to_public (decaf_255_derive_private_key seed1)) false = some bytes ∧
      bytes.length = n := by
  have hd1 : decaf_255_point_decode
      (decaf_255_private_to_public (decaf_255_derive_private_key seed1)) true =
      some ((xofScalar (0 :: seed1) : Point255) * decaf_255_base) :=
    pointDecode_pointEncode 32 ell255 ell255_le _ true (Or.inl rfl)
  have hd2 : decaf_255_point_decode
      (decaf_255_private_to_public (decaf_255_derive_private_key seed2)) true =
      some ((xofScalar (0 :: seed2) : Point255) * decaf_255_base) :=
    pointDecode_pointEncode 32 ell255 ell255_le _ true (Or.inl rfl)
  refine ⟨xofSqueeze
      (3 :: (decaf_255_point_encode ((xofScalar (0 :: seed1) : Point255) *
          ((xofScalar (0 :: seed2) : Point255) * decaf_255_base)) ++
        ((decaf_255_derive_private_key seed1).pub ++
          decaf_255_private_to_public (decaf_255_derive_private_key seed2)))) n,
    ?_, ?_, xofSqueeze_length _ n⟩
  · unfold decaf_255_shared_secret
    rw [hd2, Option.map_some']
    rfl
  · unfold decaf_255_shared_secret
    rw [hd1, Option.map_some']
    have hmul : ((decaf_255_derive_private_key seed2).secret_scalar : Point255) *
        ((xofScalar (0 :: seed1) : Point255) * decaf_255_base) =
        (xofScalar (0 :: seed1) : Point255) *
          (((decaf_255_derive_private_key seed2).secret_scalar : Point255) * decaf_255_base) :=
      mul_left_comm _ _ _
    simp only [hmul]
    rfl

/-- C1: For every private key derived from any seed and every message,
Verify(PrivateToPublic(k), Sign(k, m), m) returns Success. -/
theorem claim_c1_sign_verify (seed message : List Nat) :
    decaf_255_verify (decaf_255_sign (decaf_255_derive_private_key seed) message)
      (decaf_255_private_to_public (decaf_255_derive_private_key seed)) message =
      DECAF_SUCCESS := by
  have hsiglen : (signCommit seed message).length = 32 := leBytes_length 32 _
  have hsign : decaf_255_sign (decaf_255_derive_private_key seed) message =
      signCommit seed message ++ leBytes 32
        ((nonceScalar seed message +
          chalScalar (signCommit seed message)
            (decaf_255_private_to_public (decaf_255_derive_private_key seed)) message *
          xofScalar (0 :: seed)) % ell255) := rfl
  have htake : (decaf_255_sign (decaf_255_derive_private_key seed) message).take 32 =
      signCommit seed message := by
    rw [hsign]
    exact List.take_left' hsiglen
  have hdrop : (decaf_255_sign (decaf_255_derive_private_key seed) message).drop 32 =
      leBytes 32 ((nonceScalar seed message +
        chalScalar (signCommit seed message)
          (decaf_255_private_to_public (decaf_255_derive_private_key seed)) message *
        xofScalar (0 :: seed)) % ell255) := by
    rw [hsign]
    exact List.drop_left' hsiglen
  have hdecR : decaf_255_point_decode
      ((decaf_255_sign (decaf_255_derive_private_key seed) message).take 32) true =
      some ((nonceScalar seed message : Point255) * decaf_255_base) := by
    rw [htake]
    exact pointDecode_pointEncode 32 ell255 ell255_le _ true (Or.inl rfl)
  have hdecP : decaf_255_point_decode
      (decaf_255_private_to_public (decaf_255_derive_private_key seed)) true =
      some ((xofScalar (0 :: seed) : Point255) * decaf_255_base) :=
    pointDecode_pointEncode 32 ell255 ell255_le _ true (Or.inl rfl)
  have hs_lt : (nonceScalar seed message +
      chalScalar (signCommit seed message)
        (decaf_255_private_to_public (decaf_255_derive_private_key seed)) message *
      xofScalar (0 :: seed)) % ell255 < 256 ^ 32 :=
    Nat.lt_of_lt_of_le (Nat.mod_lt _ ell255_pos) ell255_le
  have hsval : leVal ((decaf_255_sign (decaf_255_derive_private_key seed) message).drop 32) =
      (nonceScalar seed message +
        chalScalar (signCommit seed message)
          (decaf_255_private_to_public (decaf_255_derive_private_key seed)) message *
        xofScalar (0 :: seed)) % ell255 := by
    rw [hdrop, leVal_leBytes, Nat.mod_eq_of_lt hs_lt]
  have heq : (leVal ((decaf_255_sign (decaf_255_derive_private_key seed) message).drop 32) :
      Point255) * decaf_255_base =
      ((nonceScalar seed message : Point255) * decaf_255_base) +
        (chalScalar ((decaf_255_sign (decaf_255_derive_private_key seed) message).take 32)
          (decaf_255_private_to_public (decaf_255_derive_private_key seed)) message : Point255) *
        ((xofScalar (0 :: seed) : Point255) * decaf_255_base) := by
    rw [hsval, htake, ZMod.natCast_mod]
    push_cast
    ring
  unfold decaf_255_verify
  rw [hdecR, hdecP]
  simp only [Option.some_bind, Option.map_some', Option.getD_some]
  rw [if_pos heq]
